import Mathlib

/-!
DNode: peer topology registry, node address list and port counter.

A shallow embedding of `dnode.go`.  The package-level variables `PeerGraph`,
`MyNodes.NodesTab` and `MaxPeerPort` become explicit state; the request handlers
are modelled on their decoded payload (the JSON decoding and the response
writing are outside the model).  A Go runtime panic ("slice bounds out of
range") is the result `none`.

* Go slices are lists.  A slice expression `s[low:]` is in range when
  `low ≤ len(s)`; `s[:high]` is bounded by the capacity, which is at least the
  length.
* A Go `map[string]PeerProfile` is a function from keys to optional entries:
  `m[k]` reads the zero value at an absent key, `m[k] = v` and `delete(m, k)`
  change one key.
* Go `int` is a two's-complement integer of `w` bits (32 or 64).
-/

namespace DNode

/-! ## Data model -/

/-- The struct `Node` (dnode.go, lines 21-24). -/
structure Node where
  PhAddr : String
  TxAddr : String
deriving DecidableEq, Repr

/-- The struct `Peer` (lines 34-36). -/
structure Peer where
  PeerAddress : String
deriving DecidableEq, Repr

/-- The method `func (p Peer) Addr() string` (lines 38-40). -/
def Peer.Addr (p : Peer) : String := p.PeerAddress

/-- The struct `PeerProfile` (lines 42-48). -/
structure PeerProfile where
  ThisPeer : Peer
  PeerPort : Int
  Neighbors : List Peer
  Status : Bool
  Connected : Bool
deriving DecidableEq, Repr

/-- The Go zero value of `PeerProfile`, read from a map at an absent key. -/
def zeroProfile : PeerProfile :=
  { ThisPeer := { PeerAddress := "" }, PeerPort := 0, Neighbors := [],
    Status := false, Connected := false }

/-- The type of the variable `PeerGraph` (line 50): `map[string]PeerProfile`. -/
abbrev PeerGraph := String → Option PeerProfile

/-- The value `make(map[string]PeerProfile)`. -/
def emptyGraph : PeerGraph := fun _ => none

/-- The map read `g[k]`: the entry, or the zero value when the key is absent. -/
def PeerGraph.get (g : PeerGraph) (k : String) : PeerProfile :=
  (g k).getD zeroProfile

/-- The map write `g[k] = v`. -/
def PeerGraph.set (g : PeerGraph) (k : String) (v : PeerProfile) : PeerGraph :=
  fun k' => if k' = k then some v else g k'

/-- The map deletion `delete(g, k)`. -/
def PeerGraph.delete (g : PeerGraph) (k : String) : PeerGraph :=
  fun k' => if k' = k then none else g k'

/-! ## The scan and the splice shared by `removePeer` and `removePeerGraph` -/

/-- The loop `for i = 0; i < len(l)-1; i++ { if p(l[i]) { break } }` started at
index `i` with `fuel` iterations left; the value is the final `i`. -/
def scanLoop {α : Type} (p : α → Bool) (l : List α) : Nat → Nat → Nat
  | 0, i => i
  | fuel + 1, i =>
    if i + 1 < l.length then
      match l.get? i with
      | some x => if p x then i else scanLoop p l fuel (i + 1)
      | none => i
    else i

/-- The scan loop of lines 239-244 and 263-268, run from `i = 0`; the loop
makes at most `len(l)` iterations. -/
def scan {α : Type} (p : α → Bool) (l : List α) : Nat :=
  scanLoop p l l.length 0

/-- The expression `append(l[:i], l[i+1:]...)` (lines 245 and 269): the slice
`l[i+1:]` panics when `i + 1 > len(l)`. -/
def splice {α : Type} (l : List α) (i : Nat) : Option (List α) :=
  if i + 1 ≤ l.length then some (l.take i ++ l.drop (i + 1)) else none

/-! ## Topology store -/

/-- The loop body of `updatePeerGraph` (lines 172-176) over the declared
neighbours. -/
def enrollLoop (thisPeer : Peer) : List Peer → PeerGraph → PeerGraph
  | [], g => g
  | neighbor :: rest, g =>
    let profile := g.get neighbor.Addr
    let profile := { profile with Neighbors := profile.Neighbors ++ [thisPeer] }
    enrollLoop thisPeer rest (g.set neighbor.Addr profile)

/-- The function `updatePeerGraph` (lines 160-183). -/
def updatePeerGraph (g : PeerGraph) (inPeer : PeerProfile) : PeerGraph :=
  enrollLoop inPeer.ThisPeer inPeer.Neighbors (g.set inPeer.ThisPeer.Addr inPeer)

/-- Lines 263-269 of `removePeerGraph`: scan the neighbour's list for
`inPeer.ThisPeer` and splice the index out. -/
def spliceNeighbors (thisPeer : Peer) (neighbors : List Peer) : Option (List Peer) :=
  splice neighbors (scan (fun x => decide (x = thisPeer)) neighbors)

/-- The loop of `removePeerGraph` (lines 260-272) over the declared neighbours:
the spliced list is dropped and the neighbour's key deleted. -/
def removeLoop (thisPeer : Peer) : List Peer → PeerGraph → Option PeerGraph
  | [], g => some g
  | neighbor :: rest, g =>
    let profile := g.get neighbor.Addr
    match spliceNeighbors thisPeer profile.Neighbors with
    | none => none
    | some _ => removeLoop thisPeer rest (g.delete neighbor.Addr)

/-- The function `removePeerGraph` (lines 248-280). -/
def removePeerGraph (g : PeerGraph) (inPeer : PeerProfile) : Option PeerGraph :=
  match removeLoop inPeer.ThisPeer inPeer.Neighbors g with
  | none => none
  | some g' => some (g'.delete inPeer.ThisPeer.Addr)

/-! ## Node address list, port counter and the handlers -/

/-- Lines 239-245 of `removePeer`: scan `MyNodes.NodesTab` for the physical
address and splice the index out. -/
def forgetNode (nodesTab : List Node) (addr : String) : Option (List Node) :=
  splice nodesTab (scan (fun n => decide (n.PhAddr = addr)) nodesTab)

/-- The package-level variables `PeerGraph`, `MyNodes.NodesTab`, `MaxPeerPort`. -/
structure State where
  PeerGraph : PeerGraph
  NodesTab : List Node
  MaxPeerPort : Int

/-- The state after `init` (lines 55-61). -/
def init : State :=
  { PeerGraph := emptyGraph, NodesTab := [], MaxPeerPort := 3499 }

/-- Two's-complement wrap of an integer to `w` bits. -/
def wrapInt (w : Nat) (x : Int) : Int :=
  (x + 2 ^ (w - 1)) % 2 ^ w - 2 ^ (w - 1)

/-- The handler `handlePortReq` (lines 142-156): the new state and the port
written to the response. -/
def handlePortReq (w : Nat) (st : State) : State × Int :=
  let port := wrapInt w (st.MaxPeerPort + 1)
  ({ st with MaxPeerPort := port }, port)

/-- The ports written by `k` successive calls of `handlePortReq`, with the
state after them. -/
def portRequests (w : Nat) : Nat → State → State × List Int
  | 0, st => (st, [])
  | k + 1, st =>
    let r := handlePortReq w st
    let rs := portRequests w k r.1
    (rs.1, r.2 :: rs.2)

/-- The handler `handleEnroll` (lines 112-127) on a decoded profile. -/
def handleEnroll (st : State) (incomingPeer : PeerProfile) : State :=
  { st with PeerGraph := updatePeerGraph st.PeerGraph incomingPeer }

/-- The handler `handleNodeAddr` (lines 213-226) on a decoded node. -/
def handleNodeAddr (st : State) (node : Node) : State :=
  { st with NodesTab := st.NodesTab ++ [node] }

/-- The handler `removePeer` (lines 228-246) on a decoded profile. -/
def removePeer (st : State) (incomingPeer : PeerProfile) : Option State :=
  match removePeerGraph st.PeerGraph incomingPeer with
  | none => none
  | some g =>
    match forgetNode st.NodesTab incomingPeer.ThisPeer.Addr with
    | none => none
    | some nodes => some { st with PeerGraph := g, NodesTab := nodes }

/-- The handler `getAllNodes` (lines 282-286). -/
def getAllNodes (st : State) : List Node := st.NodesTab

/-! ## Reachable stores and the bidirectional-edge property -/

/-- The bidirectional-edge property of a store: whenever the entry at key `a`
lists `b`, an entry at the key of `b` exists and lists `a`. -/
def Symmetric (g : PeerGraph) : Prop :=
  ∀ (a : String) (b : Peer) (e : PeerProfile), g a = some e → b ∈ e.Neighbors →
    ∃ e', g b.Addr = some e' ∧ ({ PeerAddress := a } : Peer) ∈ e'.Neighbors

/-- The stores reachable from the empty store by `updatePeerGraph` and by
completing calls of `removePeerGraph`. -/
inductive Reachable : PeerGraph → Prop
  | init : Reachable emptyGraph
  | enroll {S : PeerGraph} (P : PeerProfile) :
      Reachable S → Reachable (updatePeerGraph S P)
  | remove {S S' : PeerGraph} (P : PeerProfile) :
      Reachable S → removePeerGraph S P = some S' → Reachable S'

/-- The profile declares every neighbour that the current entry at its identity
lists; it holds of every profile whose identity is not a key of the store. -/
def DeclaresListed (S : PeerGraph) (P : PeerProfile) : Prop :=
  ∀ e, S P.ThisPeer.Addr = some e → ∀ b ∈ e.Neighbors, b ∈ P.Neighbors

/-- The keys deleted by `removePeerGraph` of the profile. -/
def DeletedKey (P : PeerProfile) (k : String) : Prop :=
  k = P.ThisPeer.Addr ∨ k ∈ P.Neighbors.map Peer.Addr

/-- Every entry deleted by `removePeerGraph` of the profile lists deleted keys
only. -/
def DeletesClosed (S : PeerGraph) (P : PeerProfile) : Prop :=
  ∀ k, DeletedKey P k → ∀ e, S k = some e → ∀ b ∈ e.Neighbors, DeletedKey P b.Addr

/-- The stores reachable from the empty store by `updatePeerGraph` of profiles
that declare what their entry lists, and by completing calls of
`removePeerGraph` whose deleted entries list deleted keys only. -/
inductive GuardedReachable : PeerGraph → Prop
  | init : GuardedReachable emptyGraph
  | enroll {S : PeerGraph} (P : PeerProfile) :
      GuardedReachable S → DeclaresListed S P → GuardedReachable (updatePeerGraph S P)
  | remove {S S' : PeerGraph} (P : PeerProfile) :
      GuardedReachable S → DeletesClosed S P → removePeerGraph S P = some S' →
        GuardedReachable S'

/-! ## The scan and the splice: structural equations -/

theorem scanLoop_cons {α : Type} (p : α → Bool) (x : α) (l : List α) (fuel i : Nat) :
    scanLoop p (x :: l) fuel (i + 1) = scanLoop p l fuel i + 1 := by
  induction fuel generalizing i with
  | zero => rfl
  | succ fuel ih =>
    simp only [scanLoop, List.length_cons, List.get?_cons_succ, Nat.add_lt_add_iff_right]
    by_cases h : i + 1 < l.length
    · simp only [h, if_true]
      cases hx : l.get? i with
      | none => rfl
      | some y =>
        by_cases hp : p y = true
        · simp [hp]
        · simp [hp, ih]
    · simp [h]

theorem scan_nil {α : Type} (p : α → Bool) : scan p ([] : List α) = 0 := rfl

theorem scan_singleton {α : Type} (p : α → Bool) (x : α) : scan p [x] = 0 := rfl

theorem scanLoop_zero_cons_cons {α : Type} (p : α → Bool) (x y : α) (r : List α) (n : Nat) :
    scanLoop p (x :: y :: r) (n + 1) 0 = if p x then 0 else scanLoop p (x :: y :: r) n 1 := by
  simp [scanLoop]

theorem scan_cons_cons {α : Type} (p : α → Bool) (x y : α) (r : List α) :
    scan p (x :: y :: r) = if p x then 0 else scan p (y :: r) + 1 := by
  have h := scanLoop_cons p x (y :: r) ((y :: r).length) 0
  unfold scan
  rw [show (x :: y :: r).length = (y :: r).length + 1 from rfl,
    scanLoop_zero_cons_cons, h]

theorem splice_cons_succ {α : Type} (x : α) (l : List α) (i : Nat) :
    splice (x :: l) (i + 1) = (splice l i).map (fun t => x :: t) := by
  unfold splice
  by_cases h : i + 1 ≤ l.length
  · simp [h]
  · simp [h]

theorem splice_scan_nil {α : Type} (p : α → Bool) :
    splice ([] : List α) (scan p []) = none := rfl

theorem splice_scan_singleton {α : Type} (p : α → Bool) (x : α) :
    splice [x] (scan p [x]) = some [] := rfl

theorem splice_scan_cons {α : Type} (p : α → Bool) (x : α) (l : List α) (hl : l ≠ []) :
    splice (x :: l) (scan p (x :: l)) =
      if p x then some l else (splice l (scan p l)).map (fun t => x :: t) := by
  cases l with
  | nil => exact absurd rfl hl
  | cons y r =>
    rw [scan_cons_cons]
    by_cases hp : p x = true
    · simp [hp, splice]
    · simp only [hp, if_false, Bool.false_eq_true]
      exact splice_cons_succ x (y :: r) (scan p (y :: r))

/-- The scan followed by the splice panics exactly on the empty list. -/
theorem splice_scan_eq_none {α : Type} (p : α → Bool) (l : List α) :
    splice l (scan p l) = none ↔ l = [] := by
  induction l with
  | nil => simp [splice_scan_nil]
  | cons x l ih =>
    by_cases hl : l = []
    · subst hl; simp [splice_scan_singleton]
    · rw [splice_scan_cons p x l hl]
      by_cases hp : p x = true
      · simp [hp]
      · simp [hp, ih, hl]

/-- When the first element satisfying `p` is `x`, the scan followed by the
splice removes that occurrence. -/
theorem splice_scan_first {α : Type} (p : α → Bool) (pre post : List α) (x : α)
    (hpre : ∀ y ∈ pre, p y = false) (hx : p x = true) :
    splice (pre ++ x :: post) (scan p (pre ++ x :: post)) = some (pre ++ post) := by
  induction pre with
  | nil =>
    cases post with
    | nil => exact splice_scan_singleton p x
    | cons y r =>
      rw [List.nil_append, splice_scan_cons p x (y :: r) (by simp)]
      simp [hx]
  | cons a pre ih =>
    have ha : p a = false := hpre a (List.mem_cons_self a pre)
    have ih := ih (fun y hy => hpre y (List.mem_cons_of_mem a hy))
    rw [List.cons_append, splice_scan_cons p a (pre ++ x :: post) (by simp), ih]
    simp [ha]

/-- The final index is never compared: when no earlier element satisfies `p`,
the scan followed by the splice removes the last element, whatever it is. -/
theorem splice_scan_last {α : Type} (p : α → Bool) (pre : List α) (x : α)
    (hpre : ∀ y ∈ pre, p y = false) :
    splice (pre ++ [x]) (scan p (pre ++ [x])) = some pre := by
  induction pre with
  | nil => exact splice_scan_singleton p x
  | cons a pre ih =>
    have ha : p a = false := hpre a (List.mem_cons_self a pre)
    have ih := ih (fun y hy => hpre y (List.mem_cons_of_mem a hy))
    rw [List.cons_append, splice_scan_cons p a (pre ++ [x]) (by simp), ih]
    simp [ha]

/-- The scan stops at the first index among all but the last that satisfies
`p`, and at the last index when there is none: the fuel `len(l)` is enough. -/
theorem scan_eq_min {α : Type} (p : α → Bool) (l : List α) :
    scan p l = min (l.findIdx p) (l.length - 1) := by
  induction l with
  | nil => rfl
  | cons x l ih =>
    cases l with
    | nil => simp [scan_singleton]
    | cons y r =>
      have hf : List.findIdx p (x :: y :: r) =
          bif p x then 0 else List.findIdx p (y :: r) + 1 := List.findIdx_cons ..
      rw [scan_cons_cons, ih, hf]
      by_cases hp : p x = true
      · simp [hp]
      · simp only [hp, Bool.false_eq_true, if_false, cond_false, List.length_cons]
        omega

/-! ## Map reads after a write or a deletion -/

theorem get_set (g : PeerGraph) (k k' : String) (v : PeerProfile) :
    (g.set k v).get k' = if k' = k then v else g.get k' := by
  unfold PeerGraph.get PeerGraph.set
  by_cases h : k' = k
  · simp [h]
  · simp [h]

theorem get_delete (g : PeerGraph) (k k' : String) :
    (g.delete k).get k' = if k' = k then zeroProfile else g.get k' := by
  unfold PeerGraph.get PeerGraph.delete
  by_cases h : k' = k
  · simp [h]
  · simp [h]

theorem get_of_some (g : PeerGraph) (k : String) (e : PeerProfile) (h : g k = some e) :
    g.get k = e := by
  simp [PeerGraph.get, h]

theorem get_of_none (g : PeerGraph) (k : String) (h : g k = none) :
    g.get k = zeroProfile := by
  simp [PeerGraph.get, h]

/-- An entry lists a peer exactly when the map read at its key does. -/
theorem mem_get_neighbors (g : PeerGraph) (k : String) (b : Peer) :
    b ∈ (g.get k).Neighbors ↔ ∃ e, g k = some e ∧ b ∈ e.Neighbors := by
  cases h : g k with
  | none => simp [PeerGraph.get, h, zeroProfile]
  | some e => simp [PeerGraph.get, h]

theorem get_neighbors_eq_nil (g : PeerGraph) (k : String) :
    (g.get k).Neighbors = [] ↔ g k = none ∨ ∃ e, g k = some e ∧ e.Neighbors = [] := by
  cases h : g k with
  | none => simp [PeerGraph.get, h, zeroProfile]
  | some e => simp [PeerGraph.get, h]

theorem mem_map_addr (N : List Peer) (k : String) :
    k ∈ N.map Peer.Addr ↔ ({ PeerAddress := k } : Peer) ∈ N := by
  constructor
  · intro h
    obtain ⟨m, hm, rfl⟩ := List.mem_map.1 h
    exact hm
  · intro h
    exact List.mem_map.2 ⟨_, h, rfl⟩

theorem addr_injective : Function.Injective Peer.Addr := by
  intro a b h
  cases a; cases b
  simpa [Peer.Addr] using h

/-! ## The store after the enrol loop and after the remove loop -/

/-- Every key named `c > 0` times by the declared neighbours holds its former
entry (the zero value when absent) with `c` copies of the enrolling peer
appended; every other key is unchanged. -/
theorem enrollLoop_apply (me : Peer) (N : List Peer) (g : PeerGraph) (k : String) :
    enrollLoop me N g k =
      if k ∈ N.map Peer.Addr then
        some { g.get k with
          Neighbors := (g.get k).Neighbors ++ List.replicate ((N.map Peer.Addr).count k) me }
      else g k := by
  induction N generalizing g with
  | nil => simp [enrollLoop]
  | cons n rest ih =>
    simp only [enrollLoop, List.map_cons, List.mem_cons]
    rw [ih, get_set]
    by_cases hk : k = n.Addr
    · subst hk
      by_cases hr : n.Addr ∈ rest.map Peer.Addr
      · simp [hr, List.replicate_succ]
      · simp [hr, PeerGraph.set, List.count_eq_zero_of_not_mem hr]
    · have hk' : n.Addr ≠ k := fun h => hk h.symm
      by_cases hr : k ∈ rest.map Peer.Addr
      · simp [hr, hk, List.count_cons_of_ne hk']
      · simp [hr, hk, PeerGraph.set]

/-- The neighbour list read at a key after `updatePeerGraph`. -/
theorem updatePeerGraph_neighbors (g : PeerGraph) (P : PeerProfile) (k : String) :
    ((updatePeerGraph g P).get k).Neighbors =
      (if k = P.ThisPeer.Addr then P.Neighbors else (g.get k).Neighbors) ++
        List.replicate ((P.Neighbors.map Peer.Addr).count k) P.ThisPeer := by
  have h := enrollLoop_apply P.ThisPeer P.Neighbors (g.set P.ThisPeer.Addr P) k
  unfold updatePeerGraph
  by_cases hk : k ∈ P.Neighbors.map Peer.Addr
  · rw [if_pos hk] at h
    rw [get_of_some _ _ _ h, get_set]
    by_cases hp : k = P.ThisPeer.Addr
    · simp [hp]
    · simp [hp]
  · rw [if_neg hk] at h
    have h2 : (enrollLoop P.ThisPeer P.Neighbors (g.set P.ThisPeer.Addr P)).get k =
        (g.set P.ThisPeer.Addr P).get k := by
      simp only [PeerGraph.get, h]
    rw [h2, get_set, List.count_eq_zero_of_not_mem hk]
    by_cases hp : k = P.ThisPeer.Addr
    · simp [hp]
    · simp [hp]

/-- When the remove loop completes, it has deleted the keys of the declared
neighbours and changed nothing else. -/
theorem removeLoop_some (me : Peer) (N : List Peer) (g g' : PeerGraph)
    (h : removeLoop me N g = some g') (k : String) :
    g' k = if k ∈ N.map Peer.Addr then none else g k := by
  induction N generalizing g with
  | nil =>
    simp only [removeLoop, Option.some.injEq] at h
    simp [h]
  | cons n rest ih =>
    simp only [removeLoop] at h
    cases hs : spliceNeighbors me (g.get n.Addr).Neighbors with
    | none => simp [hs] at h
    | some t =>
      simp only [hs] at h
      rw [ih _ h]
      by_cases hk : k = n.Addr
      · simp [hk, PeerGraph.delete]
      · by_cases hr : k ∈ rest.map Peer.Addr
        · simp [hr]
        · simp [hr, hk, PeerGraph.delete]

theorem spliceNeighbors_eq_none (me : Peer) (l : List Peer) :
    spliceNeighbors me l = none ↔ l = [] :=
  splice_scan_eq_none _ l

/-- The remove loop panics exactly when a declared neighbour reads an empty
neighbour list (absent entry included) or an address is declared twice. -/
theorem removeLoop_eq_none (me : Peer) (N : List Peer) (g : PeerGraph) :
    removeLoop me N g = none ↔
      (∃ M ∈ N, (g.get M.Addr).Neighbors = []) ∨ ¬ (N.map Peer.Addr).Nodup := by
  induction N generalizing g with
  | nil => simp [removeLoop]
  | cons n rest ih =>
    simp only [removeLoop]
    cases hs : spliceNeighbors me (g.get n.Addr).Neighbors with
    | none =>
      have hn := (spliceNeighbors_eq_none me _).1 hs
      simp only [true_iff]
      exact Or.inl ⟨n, List.mem_cons_self n rest, hn⟩
    | some t =>
      have hn : (g.get n.Addr).Neighbors ≠ [] := by
        intro h0
        rw [(spliceNeighbors_eq_none me _).2 h0] at hs
        exact Option.noConfusion hs
      simp only [ih, List.map_cons, List.nodup_cons, not_and_or, not_not, get_delete]
      constructor
      · rintro (⟨M, hM, hM0⟩ | hnd)
        · by_cases hMn : M.Addr = n.Addr
          · exact Or.inr (Or.inl (hMn ▸ List.mem_map.2 ⟨M, hM, rfl⟩))
          · rw [if_neg hMn] at hM0
            exact Or.inl ⟨M, List.mem_cons_of_mem n hM, hM0⟩
        · exact Or.inr (Or.inr hnd)
      · rintro (⟨M, hM, hM0⟩ | hin | hnd)
        · rcases List.mem_cons.1 hM with rfl | hM
          · exact absurd hM0 hn
          · refine Or.inl ⟨M, hM, ?_⟩
            by_cases hMn : M.Addr = n.Addr
            · simp [hMn, zeroProfile]
            · simpa [hMn] using hM0
        · obtain ⟨M, hM, hMa⟩ := List.mem_map.1 hin
          exact Or.inl ⟨M, hM, by simp [hMa, zeroProfile]⟩
        · exact Or.inr hnd

/-- The entry at a key after `updatePeerGraph`. -/
theorem updatePeerGraph_apply (g : PeerGraph) (P : PeerProfile) (k : String) :
    updatePeerGraph g P k =
      if k ∈ P.Neighbors.map Peer.Addr then
        some { (g.set P.ThisPeer.Addr P).get k with
          Neighbors := ((g.set P.ThisPeer.Addr P).get k).Neighbors ++
            List.replicate ((P.Neighbors.map Peer.Addr).count k) P.ThisPeer }
      else if k = P.ThisPeer.Addr then some P else g k := by
  unfold updatePeerGraph
  rw [enrollLoop_apply]
  by_cases hk : k ∈ P.Neighbors.map Peer.Addr
  · simp [hk]
  · simp [hk, PeerGraph.set]

theorem removePeerGraph_eq_none (g : PeerGraph) (P : PeerProfile) :
    removePeerGraph g P = none ↔ removeLoop P.ThisPeer P.Neighbors g = none := by
  unfold removePeerGraph
  cases removeLoop P.ThisPeer P.Neighbors g <;> simp

theorem removePeerGraph_some (g g' : PeerGraph) (P : PeerProfile)
    (h : removePeerGraph g P = some g') (k : String) :
    g' k = if k = P.ThisPeer.Addr ∨ k ∈ P.Neighbors.map Peer.Addr then none else g k := by
  unfold removePeerGraph at h
  cases hl : removeLoop P.ThisPeer P.Neighbors g with
  | none => simp [hl] at h
  | some g'' =>
    simp only [hl, Option.some.injEq] at h
    subst h
    have h2 := removeLoop_some _ _ _ _ hl k
    by_cases hk : k = P.ThisPeer.Addr
    · simp [hk, PeerGraph.delete]
    · simp [hk, PeerGraph.delete, h2]

/-! ## Topology store: enrolment -/

/-- C1 (refuted as stated): on the empty store, where "A" is absent, the
profile "A" with port 3500 declares itself as its only neighbour.  After
`updatePeerGraph` the entry at key "A" is that profile with two copies of "A" in
its neighbour list: it is built from the profile written before the loop, and
for no neighbour list is it the zero profile carrying that list. -/
theorem enroll_self_neighbor_not_from_zero :
    emptyGraph "A" = none ∧
    (⟨"A"⟩ : Peer) ∈ (⟨⟨"A"⟩, 3500, [⟨"A"⟩], true, true⟩ : PeerProfile).Neighbors ∧
    updatePeerGraph emptyGraph ⟨⟨"A"⟩, 3500, [⟨"A"⟩], true, true⟩ "A" =
      some ⟨⟨"A"⟩, 3500, [⟨"A"⟩, ⟨"A"⟩], true, true⟩ ∧
    ¬ ∃ l : List Peer,
      updatePeerGraph emptyGraph ⟨⟨"A"⟩, 3500, [⟨"A"⟩], true, true⟩ "A" =
        some { zeroProfile with Neighbors := l } := by
  refine ⟨rfl, List.mem_singleton.2 rfl, rfl, ?_⟩
  rintro ⟨l, h⟩
  have h1 : updatePeerGraph emptyGraph ⟨⟨"A"⟩, 3500, [⟨"A"⟩], true, true⟩ "A" =
      some ⟨⟨"A"⟩, 3500, [⟨"A"⟩, ⟨"A"⟩], true, true⟩ := rfl
  rw [h1] at h
  have h2 := congrArg PeerProfile.PeerPort (Option.some.inj h)
  simp [zeroProfile] at h2

/-- C1 (amended): after `updatePeerGraph` of a profile P on any store, the key
of P's identity holds an entry whose neighbour list contains every declared
neighbour, and for every declared neighbour M the key of M's address holds an
entry whose neighbour list contains P's identity.  When M's address was absent
from the store and is not P's own address, that entry is created from the zero
profile: it is the zero profile with one copy of P's identity appended per
occurrence of M's address in the declared list. -/
theorem updatePeerGraph_enrolls (S : PeerGraph) (P : PeerProfile) :
    (∃ e, updatePeerGraph S P P.ThisPeer.Addr = some e ∧
        ∀ n ∈ P.Neighbors, n ∈ e.Neighbors) ∧
    (∀ M ∈ P.Neighbors, ∃ e, updatePeerGraph S P M.Addr = some e ∧
        P.ThisPeer ∈ e.Neighbors ∧
        (S M.Addr = none → M.Addr ≠ P.ThisPeer.Addr →
          e = { zeroProfile with
            Neighbors := List.replicate ((P.Neighbors.map Peer.Addr).count M.Addr)
              P.ThisPeer })) := by
  constructor
  · rw [updatePeerGraph_apply]
    by_cases hk : P.ThisPeer.Addr ∈ P.Neighbors.map Peer.Addr
    · rw [if_pos hk, get_set, if_pos rfl]
      exact ⟨_, rfl, fun n hn => List.mem_append_left _ hn⟩
    · rw [if_neg hk, if_pos rfl]
      exact ⟨P, rfl, fun n hn => hn⟩
  · intro M hM
    have hk : M.Addr ∈ P.Neighbors.map Peer.Addr := List.mem_map.2 ⟨M, hM, rfl⟩
    have hc : 0 < (P.Neighbors.map Peer.Addr).count M.Addr := List.count_pos_iff.2 hk
    rw [updatePeerGraph_apply, if_pos hk]
    refine ⟨_, rfl, ?_, ?_⟩
    · apply List.mem_append_right
      exact List.mem_replicate.2 ⟨Nat.pos_iff_ne_zero.1 hc, rfl⟩
    · intro hS hne
      rw [get_set, if_neg hne, get_of_none S _ hS]
      simp [zeroProfile]

/-- Witness of C1: enrolling "A" with neighbour "B" into the empty store. -/
theorem updatePeerGraph_enrolls_witness :
    ∃ e, updatePeerGraph emptyGraph ⟨⟨"A"⟩, 3500, [⟨"B"⟩], true, false⟩ "B" = some e ∧
      (⟨"A"⟩ : Peer) ∈ e.Neighbors ∧ e = ⟨⟨""⟩, 0, [⟨"A"⟩], false, false⟩ := by
  obtain ⟨e, h1, h2, h3⟩ :=
    (updatePeerGraph_enrolls emptyGraph ⟨⟨"A"⟩, 3500, [⟨"B"⟩], true, false⟩).2 ⟨"B"⟩
      (List.mem_singleton.2 rfl)
  exact ⟨e, h1, h2, h3 rfl (by decide)⟩

/-! ## Topology store: removal -/

/-- C2 (the code at the failing input): on the empty store, where "X" was never
enrolled, `removePeerGraph` of the profile "X" with declared neighbour "Y"
panics: the entry read at "Y" is the zero value, and the slice `[1:]` of its
empty neighbour list is out of range. -/
theorem removePeerGraph_never_enrolled_panics :
    emptyGraph "X" = none ∧
      removePeerGraph emptyGraph ⟨⟨"X"⟩, 0, [⟨"Y"⟩], false, false⟩ = none ∧
      splice (emptyGraph.get "Y").Neighbors
        (scan (fun x => decide (x = (⟨"X"⟩ : Peer))) (emptyGraph.get "Y").Neighbors) = none :=
  ⟨rfl, rfl, rfl⟩

/-- C3: when `removePeerGraph` of a profile P completes on a store S, the
resulting store is S with the key of P's identity and every key named in P's
declared neighbour list deleted, and every other key unchanged. -/
theorem removePeerGraph_result (S S' : PeerGraph) (P : PeerProfile)
    (h : removePeerGraph S P = some S') :
    S' = fun k =>
      if k = P.ThisPeer.Addr ∨ k ∈ P.Neighbors.map Peer.Addr then none else S k := by
  funext k
  exact removePeerGraph_some S S' P h k

/-- Witness of C3: "B" holds the neighbours "A" and "C"; removing "A" with
declared neighbour "B" completes and deletes the whole entry of "B". -/
theorem removePeerGraph_result_witness :
    removePeerGraph (emptyGraph.set "B" ⟨⟨"B"⟩, 3501, [⟨"A"⟩, ⟨"C"⟩], true, false⟩)
        ⟨⟨"A"⟩, 3500, [⟨"B"⟩], true, false⟩ =
      some (((emptyGraph.set "B" ⟨⟨"B"⟩, 3501, [⟨"A"⟩, ⟨"C"⟩], true, false⟩).delete
        "B").delete "A") ∧
    ((emptyGraph.set "B" ⟨⟨"B"⟩, 3501, [⟨"A"⟩, ⟨"C"⟩], true, false⟩).delete "B").delete "A" =
      fun k =>
        if k = "A" ∨ k ∈ [(⟨"B"⟩ : Peer)].map Peer.Addr then none
        else (emptyGraph.set "B" ⟨⟨"B"⟩, 3501, [⟨"A"⟩, ⟨"C"⟩], true, false⟩) k :=
  ⟨rfl, removePeerGraph_result
    (emptyGraph.set "B" ⟨⟨"B"⟩, 3501, [⟨"A"⟩, ⟨"C"⟩], true, false⟩) _
    ⟨⟨"A"⟩, 3500, [⟨"B"⟩], true, false⟩ rfl⟩

/-- C9: `removePeerGraph` of a profile P on a store S panics if and only if P's
declared neighbour list names an address whose entry in S is absent or has an
empty neighbour list, or names the same address more than once; in every other
case it completes. -/
theorem removePeerGraph_panics_iff (S : PeerGraph) (P : PeerProfile) :
    (removePeerGraph S P = none ↔
      ((∃ M ∈ P.Neighbors,
          S M.Addr = none ∨ ∃ e, S M.Addr = some e ∧ e.Neighbors = []) ∨
        ¬ (P.Neighbors.map Peer.Addr).Nodup)) ∧
    (¬ ((∃ M ∈ P.Neighbors,
          S M.Addr = none ∨ ∃ e, S M.Addr = some e ∧ e.Neighbors = []) ∨
        ¬ (P.Neighbors.map Peer.Addr).Nodup) →
      ∃ S', removePeerGraph S P = some S') := by
  have key : removePeerGraph S P = none ↔
      ((∃ M ∈ P.Neighbors,
          S M.Addr = none ∨ ∃ e, S M.Addr = some e ∧ e.Neighbors = []) ∨
        ¬ (P.Neighbors.map Peer.Addr).Nodup) := by
    rw [removePeerGraph_eq_none, removeLoop_eq_none]
    simp only [get_neighbors_eq_nil]
  refine ⟨key, fun hno => ?_⟩
  cases hr : removePeerGraph S P with
  | none => exact absurd (key.1 hr) hno
  | some S' => exact ⟨S', rfl⟩

/-- Witness of C9: the second occurrence of "B" reads the entry the first one
deleted. -/
theorem removePeerGraph_panics_iff_witness :
    removePeerGraph (emptyGraph.set "B" ⟨⟨"B"⟩, 3501, [⟨"A"⟩], true, false⟩)
      ⟨⟨"A"⟩, 3500, [⟨"B"⟩, ⟨"B"⟩], true, false⟩ = none :=
  (removePeerGraph_panics_iff (emptyGraph.set "B" ⟨⟨"B"⟩, 3501, [⟨"A"⟩], true, false⟩)
    ⟨⟨"A"⟩, 3500, [⟨"B"⟩, ⟨"B"⟩], true, false⟩).1.2 (Or.inr (by decide))

/-- Enrolment followed by removal of the same profile, on a store that holds
none of the keys involved. -/
theorem remove_update_eq (S : PeerGraph) (P : PeerProfile)
    (hp : S P.ThisPeer.Addr = none) (hN : ∀ M ∈ P.Neighbors, S M.Addr = none)
    (hd : P.Neighbors.Nodup) :
    removePeerGraph (updatePeerGraph S P) P = some S := by
  have hnot : removePeerGraph (updatePeerGraph S P) P ≠ none := by
    rw [Ne, removePeerGraph_eq_none, removeLoop_eq_none]
    rintro (⟨M, hM, h0⟩ | hnd)
    · rw [updatePeerGraph_neighbors] at h0
      have hk : M.Addr ∈ P.Neighbors.map Peer.Addr := List.mem_map.2 ⟨M, hM, rfl⟩
      have hc : 0 < (P.Neighbors.map Peer.Addr).count M.Addr := List.count_pos_iff.2 hk
      have h1 := (List.append_eq_nil.1 h0).2
      rw [List.replicate_eq_nil_iff] at h1
      omega
    · exact hnd (hd.map addr_injective)
  cases hr : removePeerGraph (updatePeerGraph S P) P with
  | none => exact absurd hr hnot
  | some S' =>
    congr 1
    funext k
    rw [removePeerGraph_some _ _ _ hr k]
    by_cases hk : k ∈ P.Neighbors.map Peer.Addr
    · obtain ⟨M, hM, rfl⟩ := List.mem_map.1 hk
      simp [hk, hN M hM]
    · by_cases hkp : k = P.ThisPeer.Addr
      · simp [hkp, hp]
      · simp [hk, hkp, updatePeerGraph_apply]

/-- C4: on a store that holds neither P's identity nor any of P's declared
neighbours as a key, with the declared neighbours pairwise distinct,
`updatePeerGraph` of P followed by `removePeerGraph` of P completes and gives
back the store.  From the empty store, enrolling "A" with neighbours "B" and "C"
gives "A" with neighbours B, C and "B", "C" each with neighbour A and nothing
else; the removal then completes and leaves no entry keyed "A" and no entry
listing A. -/
theorem remove_undoes_enroll :
    (∀ (S : PeerGraph) (P : PeerProfile), S P.ThisPeer.Addr = none →
      (∀ M ∈ P.Neighbors, S M.Addr = none) → P.Neighbors.Nodup →
      removePeerGraph (updatePeerGraph S P) P = some S) ∧
    (∀ (port : Int) (status connected : Bool),
      updatePeerGraph emptyGraph ⟨⟨"A"⟩, port, [⟨"B"⟩, ⟨"C"⟩], status, connected⟩ =
        (fun k =>
          if k = "A" then some ⟨⟨"A"⟩, port, [⟨"B"⟩, ⟨"C"⟩], status, connected⟩
          else if k = "B" then some { zeroProfile with Neighbors := [⟨"A"⟩] }
          else if k = "C" then some { zeroProfile with Neighbors := [⟨"A"⟩] }
          else none) ∧
      ∃ S', removePeerGraph
          (updatePeerGraph emptyGraph ⟨⟨"A"⟩, port, [⟨"B"⟩, ⟨"C"⟩], status, connected⟩)
          ⟨⟨"A"⟩, port, [⟨"B"⟩, ⟨"C"⟩], status, connected⟩ = some S' ∧
        S' "A" = none ∧ ∀ k e, S' k = some e → (⟨"A"⟩ : Peer) ∉ e.Neighbors) := by
  refine ⟨remove_update_eq, fun port status connected => ⟨?_, emptyGraph, ?_, rfl, ?_⟩⟩
  · funext k
    rw [updatePeerGraph_apply]
    by_cases hA : k = "A"
    · subst hA; rfl
    · by_cases hB : k = "B"
      · subst hB; rfl
      · by_cases hC : k = "C"
        · subst hC; rfl
        · simp [hA, hB, hC, Peer.Addr, emptyGraph]
  · have hd : ([⟨"B"⟩, ⟨"C"⟩] : List Peer).Nodup := by decide
    exact remove_update_eq emptyGraph _ rfl (fun _ _ => rfl) hd
  · intro k e h
    simp [emptyGraph] at h

/-- Witness of C4: the store holds "D" only; "A" enrols with neighbour "B". -/
theorem remove_undoes_enroll_witness :
    removePeerGraph
      (updatePeerGraph (emptyGraph.set "D" ⟨⟨"D"⟩, 3502, [], true, false⟩)
        ⟨⟨"A"⟩, 3500, [⟨"B"⟩], true, false⟩)
      ⟨⟨"A"⟩, 3500, [⟨"B"⟩], true, false⟩ =
      some (emptyGraph.set "D" ⟨⟨"D"⟩, 3502, [], true, false⟩) :=
  remove_undoes_enroll.1 (emptyGraph.set "D" ⟨⟨"D"⟩, 3502, [], true, false⟩)
    ⟨⟨"A"⟩, 3500, [⟨"B"⟩], true, false⟩ (by decide)
    (by intro M hM; rw [List.mem_singleton.1 hM]; decide) (by decide)

/-! ## Node address list -/

/-- A list with an element satisfying `p` splits at the first such element. -/
theorem exists_first_split {α : Type} (p : α → Bool) (l : List α)
    (h : ∃ x ∈ l, p x = true) :
    ∃ pre x post, l = pre ++ x :: post ∧ (∀ y ∈ pre, p y = false) ∧ p x = true := by
  induction l with
  | nil =>
    obtain ⟨x, hx, _⟩ := h
    exact absurd hx (List.not_mem_nil x)
  | cons a l ih =>
    by_cases ha : p a = true
    · exact ⟨[], a, l, rfl, fun y hy => absurd hy (List.not_mem_nil y), ha⟩
    · obtain ⟨x, hx, hpx⟩ := h
      have hxl : x ∈ l := by
        rcases List.mem_cons.1 hx with rfl | hxl
        · exact absurd hpx ha
        · exact hxl
      obtain ⟨pre, y, post, rfl, hpre, hy⟩ := ih ⟨x, hxl, hpx⟩
      refine ⟨a :: pre, y, post, rfl, ?_, hy⟩
      intro z hz
      rcases List.mem_cons.1 hz with rfl | hz
      · simpa using ha
      · exact hpre z hz

/-- The scan stops at the final index when no earlier element satisfies `p`. -/
theorem scan_last {α : Type} (p : α → Bool) (pre : List α) (x : α)
    (hpre : ∀ y ∈ pre, p y = false) : scan p (pre ++ [x]) = pre.length := by
  induction pre with
  | nil => rfl
  | cons a pre ih =>
    have ha : p a = false := hpre a (List.mem_cons_self a pre)
    have ih := ih (fun y hy => hpre y (List.mem_cons_of_mem a hy))
    cases hq : pre ++ [x] with
    | nil => simp at hq
    | cons b r =>
      rw [List.cons_append, hq, scan_cons_cons, ← hq, ih]
      simp [ha]

/-- C5: on a node list holding at least one entry whose physical address equals
the identity, the scan-and-splice of `removePeer` returns the list with the
first such entry removed and the others in their order.  Announcing the node
("10.0.0.1", "10.0.0.1:9000") into the empty list gives a one-entry list, and
forgetting "10.0.0.1" then gives the empty list. -/
theorem forgetNode_removes_first :
    (∀ (L : List Node) (identity : String), (∃ n ∈ L, n.PhAddr = identity) →
      ∃ pre x post, L = pre ++ x :: post ∧ (∀ y ∈ pre, y.PhAddr ≠ identity) ∧
        x.PhAddr = identity ∧ forgetNode L identity = some (pre ++ post)) ∧
    getAllNodes (handleNodeAddr init ⟨"10.0.0.1", "10.0.0.1:9000"⟩) =
      [⟨"10.0.0.1", "10.0.0.1:9000"⟩] ∧
    forgetNode (getAllNodes (handleNodeAddr init ⟨"10.0.0.1", "10.0.0.1:9000"⟩))
      "10.0.0.1" = some [] ∧
    (removePeer (handleNodeAddr init ⟨"10.0.0.1", "10.0.0.1:9000"⟩)
      ⟨⟨"10.0.0.1"⟩, 0, [], false, false⟩).map getAllNodes = some [] := by
  refine ⟨?_, rfl, by decide, by decide⟩
  intro L identity h
  obtain ⟨pre, x, post, hL, hpre, hx⟩ :=
    exists_first_split (fun n => decide (n.PhAddr = identity)) L
      (by obtain ⟨n, hn, hid⟩ := h; exact ⟨n, hn, by simpa using hid⟩)
  refine ⟨pre, x, post, hL, fun y hy => by simpa using hpre y hy, by simpa using hx, ?_⟩
  subst hL
  exact splice_scan_first _ pre post x hpre hx

/-- Witness of C5: the first of two entries with address "b" is removed. -/
theorem forgetNode_removes_first_witness :
    ∃ pre x post,
      [(⟨"a", "1"⟩ : Node), ⟨"b", "2"⟩, ⟨"c", "3"⟩, ⟨"b", "4"⟩] = pre ++ x :: post ∧
      (∀ y ∈ pre, y.PhAddr ≠ "b") ∧ x.PhAddr = "b" ∧
      forgetNode [⟨"a", "1"⟩, ⟨"b", "2"⟩, ⟨"c", "3"⟩, ⟨"b", "4"⟩] "b" = some (pre ++ post) :=
  forgetNode_removes_first.1 [⟨"a", "1"⟩, ⟨"b", "2"⟩, ⟨"c", "3"⟩, ⟨"b", "4"⟩] "b"
    ⟨⟨"b", "2"⟩, by decide, rfl⟩

/-- C10: on a node list with no entry whose physical address equals the
identity, the scan-and-splice of `removePeer` does not return the list
unchanged: on a non-empty list it removes the last entry and keeps the others in
order, and on the empty list it panics. -/
theorem forgetNode_no_match (L : List Node) (identity : String)
    (h : ∀ n ∈ L, n.PhAddr ≠ identity) :
    forgetNode L identity ≠ some L ∧
    (L ≠ [] → forgetNode L identity = some L.dropLast) ∧
    (L = [] → forgetNode L identity = none) := by
  have hne : L ≠ [] → forgetNode L identity = some L.dropLast := by
    intro hL
    have hsplit := List.dropLast_append_getLast hL
    have hpre : ∀ y ∈ L.dropLast, (fun n : Node => decide (n.PhAddr = identity)) y = false := by
      intro y hy
      simpa using h y (List.dropLast_subset L hy)
    have := splice_scan_last (fun n : Node => decide (n.PhAddr = identity)) L.dropLast
      (L.getLast hL) hpre
    rw [hsplit] at this
    exact this
  have hnil : L = [] → forgetNode L identity = none := by
    intro hL
    subst hL
    rfl
  refine ⟨?_, hne, hnil⟩
  by_cases hL : L = []
  · rw [hnil hL]
    exact fun hcontra => Option.noConfusion hcontra
  · rw [hne hL]
    intro hcontra
    have hlen := congrArg List.length (Option.some.inj hcontra)
    have hpos := List.length_pos.2 hL
    rw [List.length_dropLast] at hlen
    omega

/-- Witness of C10: forgetting "c" from the entries "a", "b" removes "b". -/
theorem forgetNode_no_match_witness :
    forgetNode [⟨"a", "1"⟩, ⟨"b", "2"⟩] "c" = some [⟨"a", "1"⟩] :=
  (forgetNode_no_match [⟨"a", "1"⟩, ⟨"b", "2"⟩] "c" (by decide)).2.1 (by decide)

/-- C6 (refuted as stated): there is no node list and no neighbour list whose
only matching entry is the last one and on which the scan-and-splice fails to
return the list without that last entry. -/
theorem last_match_not_missed :
    ¬ ((∃ (pre : List Node) (x : Node) (identity : String),
          x.PhAddr = identity ∧ (∀ y ∈ pre, y.PhAddr ≠ identity) ∧
            forgetNode (pre ++ [x]) identity ≠ some pre) ∨
        (∃ (pre : List Peer) (thisPeer : Peer),
          thisPeer ∉ pre ∧ spliceNeighbors thisPeer (pre ++ [thisPeer]) ≠ some pre)) := by
  rintro (⟨pre, x, identity, _, hpre, hne⟩ | ⟨pre, thisPeer, hpre, hne⟩)
  · exact hne (splice_scan_last _ pre x (fun y hy => by simpa using hpre y hy))
  · refine hne (splice_scan_last _ pre thisPeer (fun y hy => ?_))
    have hy' : y ≠ thisPeer := fun h => hpre (h ▸ hy)
    simpa using hy'

/-- C6 (amended): on a node list (in `removePeer`) or a neighbour list (in
`removePeerGraph`) whose only matching entry is the last one, the scan stops at
the final index without comparing it, and the splice removes exactly that last
entry. -/
theorem last_match_removed :
    (∀ (pre : List Node) (x : Node) (identity : String),
      x.PhAddr = identity → (∀ y ∈ pre, y.PhAddr ≠ identity) →
        scan (fun n : Node => decide (n.PhAddr = identity)) (pre ++ [x]) = pre.length ∧
        forgetNode (pre ++ [x]) identity = some pre) ∧
    (∀ (pre : List Peer) (thisPeer : Peer), thisPeer ∉ pre →
        scan (fun x : Peer => decide (x = thisPeer)) (pre ++ [thisPeer]) = pre.length ∧
        spliceNeighbors thisPeer (pre ++ [thisPeer]) = some pre) := by
  constructor
  · intro pre x identity _ hpre
    have h : ∀ y ∈ pre, (fun n : Node => decide (n.PhAddr = identity)) y = false :=
      fun y hy => by simpa using hpre y hy
    exact ⟨scan_last _ pre x h, splice_scan_last _ pre x h⟩
  · intro pre thisPeer hpre
    have h : ∀ y ∈ pre, (fun x : Peer => decide (x = thisPeer)) y = false := by
      intro y hy
      have hy' : y ≠ thisPeer := fun h => hpre (h ▸ hy)
      simpa using hy'
    exact ⟨scan_last _ pre thisPeer h, splice_scan_last _ pre thisPeer h⟩

/-- Witness of C6 (amended): the only entry with address "b" is the last of
two. -/
theorem last_match_removed_witness :
    scan (fun n : Node => decide (n.PhAddr = "b")) ([⟨"a", "1"⟩] ++ [⟨"b", "2"⟩]) = 1 ∧
      forgetNode ([⟨"a", "1"⟩] ++ [⟨"b", "2"⟩]) "b" = some [⟨"a", "1"⟩] :=
  last_match_removed.1 [⟨"a", "1"⟩] ⟨"b", "2"⟩ "b" rfl (by decide)

/-! ## Bidirectional edges -/

/-- The bidirectional-edge property in terms of map reads. -/
theorem symmetric_iff (g : PeerGraph) :
    Symmetric g ↔ ∀ (a : String) (b : Peer), b ∈ (g.get a).Neighbors →
      ({ PeerAddress := a } : Peer) ∈ (g.get b.Addr).Neighbors := by
  constructor
  · intro h a b hb
    obtain ⟨e, he, hbe⟩ := (mem_get_neighbors g a b).1 hb
    exact (mem_get_neighbors g b.Addr _).2 (h a b e he hbe)
  · intro h a b e he hbe
    exact (mem_get_neighbors g b.Addr _).1 (h a b ((mem_get_neighbors g a b).2 ⟨e, he, hbe⟩))

theorem symmetric_update (S : PeerGraph) (P : PeerProfile) (hS : Symmetric S)
    (hg : DeclaresListed S P) : Symmetric (updatePeerGraph S P) := by
  rw [symmetric_iff] at hS ⊢
  have hme : ({ PeerAddress := P.ThisPeer.Addr } : Peer) = P.ThisPeer := rfl
  intro a b hb
  rw [updatePeerGraph_neighbors] at hb ⊢
  rcases List.mem_append.1 hb with hb | hb
  · by_cases ha : a = P.ThisPeer.Addr
    · rw [if_pos ha] at hb
      apply List.mem_append_right
      have hc : 0 < (P.Neighbors.map Peer.Addr).count b.Addr :=
        List.count_pos_iff.2 (List.mem_map.2 ⟨b, hb, rfl⟩)
      rw [ha, hme]
      exact List.mem_replicate.2 ⟨Nat.pos_iff_ne_zero.1 hc, rfl⟩
    · rw [if_neg ha] at hb
      have hback := hS a b hb
      apply List.mem_append_left
      by_cases hbp : b.Addr = P.ThisPeer.Addr
      · rw [if_pos hbp]
        rw [hbp] at hback
        obtain ⟨e, he, hae⟩ := (mem_get_neighbors S _ _).1 hback
        exact hg e he _ hae
      · rw [if_neg hbp]
        exact hback
  · obtain ⟨hc, hbme⟩ := List.mem_replicate.1 hb
    have ha : a ∈ P.Neighbors.map Peer.Addr := by
      by_contra hna
      exact hc (List.count_eq_zero_of_not_mem hna)
    apply List.mem_append_left
    rw [hbme, if_pos rfl]
    exact (mem_map_addr _ _).1 ha

theorem symmetric_remove (S S' : PeerGraph) (P : PeerProfile) (hS : Symmetric S)
    (hg : DeletesClosed S P) (hr : removePeerGraph S P = some S') : Symmetric S' := by
  intro a b e he hbe
  have ha := removePeerGraph_some S S' P hr a
  have hb := removePeerGraph_some S S' P hr b.Addr
  by_cases hda : a = P.ThisPeer.Addr ∨ a ∈ P.Neighbors.map Peer.Addr
  · rw [if_pos hda, he] at ha
    exact Option.noConfusion ha
  · rw [if_neg hda, he] at ha
    obtain ⟨e', he', hae'⟩ := hS a b e ha.symm hbe
    by_cases hdb : b.Addr = P.ThisPeer.Addr ∨ b.Addr ∈ P.Neighbors.map Peer.Addr
    · exact absurd (hg b.Addr hdb e' he' _ hae') hda
    · rw [if_neg hdb] at hb
      exact ⟨e', hb.trans he', hae'⟩

/-- C7 (refuted as stated): two reachable stores break the bidirectional-edge
property.  After "A" enrols with neighbour "B" and "B" enrols with no neighbour,
the entry of "A" lists "B" and the entry of "B" does not list "A".  After "A"
and "C" each enrol with neighbour "B" and "A" is removed with neighbour "B", the
entry of "C" lists "B" and no entry of "B" exists. -/
theorem reachable_not_symmetric :
    (Reachable (updatePeerGraph
        (updatePeerGraph emptyGraph ⟨⟨"A"⟩, 3500, [⟨"B"⟩], true, false⟩)
        ⟨⟨"B"⟩, 3501, [], true, false⟩) ∧
      ¬ Symmetric (updatePeerGraph
        (updatePeerGraph emptyGraph ⟨⟨"A"⟩, 3500, [⟨"B"⟩], true, false⟩)
        ⟨⟨"B"⟩, 3501, [], true, false⟩)) ∧
    (∃ S', removePeerGraph
        (updatePeerGraph
          (updatePeerGraph emptyGraph ⟨⟨"A"⟩, 3500, [⟨"B"⟩], true, false⟩)
          ⟨⟨"C"⟩, 3501, [⟨"B"⟩], true, false⟩)
        ⟨⟨"A"⟩, 3500, [⟨"B"⟩], true, false⟩ = some S' ∧
      Reachable S' ∧ ¬ Symmetric S') := by
  constructor
  · refine ⟨Reachable.enroll _ (Reachable.enroll _ Reachable.init), fun h => ?_⟩
    obtain ⟨e', he', hA⟩ := h "A" ⟨"B"⟩ ⟨⟨"A"⟩, 3500, [⟨"B"⟩], true, false⟩ rfl
      (List.mem_singleton.2 rfl)
    have h2 : e' = ⟨⟨"B"⟩, 3501, [], true, false⟩ := (Option.some.inj he').symm
    rw [h2] at hA
    exact absurd hA (List.not_mem_nil _)
  · refine ⟨_, rfl, Reachable.remove ⟨⟨"A"⟩, 3500, [⟨"B"⟩], true, false⟩
      (Reachable.enroll ⟨⟨"C"⟩, 3501, [⟨"B"⟩], true, false⟩
        (Reachable.enroll ⟨⟨"A"⟩, 3500, [⟨"B"⟩], true, false⟩ Reachable.init)) rfl,
      fun h => ?_⟩
    obtain ⟨e', he', _⟩ := h "C" ⟨"B"⟩ ⟨⟨"C"⟩, 3501, [⟨"B"⟩], true, false⟩ rfl
      (List.mem_singleton.2 rfl)
    exact Option.noConfusion he'

/-- C7 (amended): in every store reachable from the empty store by
`updatePeerGraph` of profiles that declare every neighbour the current entry at
their identity lists (any profile whose identity is not yet a key does), and by
completing calls of `removePeerGraph` whose deleted entries list deleted keys
only, whenever the entry at key A lists B, an entry at key B exists and lists
A. -/
theorem guarded_reachable_symmetric (S : PeerGraph) (h : GuardedReachable S) :
    Symmetric S := by
  induction h with
  | init =>
    intro a b e he
    exact Option.noConfusion he
  | enroll P _ hg ih => exact symmetric_update _ P ih hg
  | remove P _ hg hr ih => exact symmetric_remove _ _ P ih hg hr

/-- Witness of C7 (amended): the store after "A" enrols with neighbour "B". -/
theorem guarded_reachable_symmetric_witness :
    GuardedReachable (updatePeerGraph emptyGraph ⟨⟨"A"⟩, 3500, [⟨"B"⟩], true, false⟩) ∧
      Symmetric (updatePeerGraph emptyGraph ⟨⟨"A"⟩, 3500, [⟨"B"⟩], true, false⟩) :=
  ⟨GuardedReachable.enroll _ GuardedReachable.init (fun _ he => Option.noConfusion he),
    guarded_reachable_symmetric _
      (GuardedReachable.enroll _ GuardedReachable.init (fun _ he => Option.noConfusion he))⟩

/-! ## Port counter -/

/-- The wrap is the identity on the positive values of a `w`-bit integer. -/
theorem wrapInt_of_bounds (w : Nat) (x : Int) (h0 : 0 < x) (h1 : x < 2 ^ (w - 1)) :
    wrapInt w x = x := by
  have hw : 1 ≤ w := by
    by_contra hw
    have hw0 : w = 0 := by omega
    subst hw0
    simp at h1
    omega
  have hpow : (2 : Int) ^ w = 2 * 2 ^ (w - 1) := by
    obtain ⟨v, rfl⟩ : ∃ v, w = v + 1 := ⟨w - 1, by omega⟩
    simp [pow_succ, mul_comm]
  have hp : (0 : Int) < 2 ^ (w - 1) := by positivity
  unfold wrapInt
  rw [Int.emod_eq_of_lt (by omega) (by omega)]
  omega

/-- The state and the ports after `k` calls of `handlePortReq`, as long as the
counter stays below the largest `w`-bit integer. -/
theorem portRequests_eq (w k : Nat) (st : State) (h0 : 0 ≤ st.MaxPeerPort)
    (h1 : st.MaxPeerPort + k < 2 ^ (w - 1)) :
    portRequests w k st =
      ({ st with MaxPeerPort := st.MaxPeerPort + k },
        (List.range k).map (fun i : Nat => st.MaxPeerPort + 1 + (i : Int))) := by
  induction k generalizing st with
  | zero => simp [portRequests]
  | succ k ih =>
    have hwrap : wrapInt w (st.MaxPeerPort + 1) = st.MaxPeerPort + 1 :=
      wrapInt_of_bounds w _ (by omega) (by push_cast at h1; omega)
    simp only [portRequests, handlePortReq, hwrap]
    rw [ih _ (by simp only; omega) (by simp only; push_cast at h1; omega)]
    simp only [List.range_succ_eq_map, List.map_cons, List.map_map, Prod.mk.injEq,
      List.cons.injEq]
    refine ⟨?_, ?_, ?_⟩
    · congr 1
      push_cast
      omega
    · simp
    · apply List.map_congr_left
      intro i _
      simp only [Function.comp_apply]
      push_cast
      omega

/-- C8: from the initial counter 3499, for every k ≥ 1 with 3499 + k below the
largest `w`-bit integer, the k-th successive call of `handlePortReq` returns
3499 + k and leaves the counter at that value; the first port is 3500, and the
ports of the k calls are 3500, 3501, ..., 3499 + k: strictly increasing, without
gap or repetition. -/
theorem handlePortReq_kth (w k : Nat) (hk : 1 ≤ k) (hw : (3499 : Int) + k < 2 ^ (w - 1)) :
    (handlePortReq w (portRequests w (k - 1) init).1).2 = 3499 + k ∧
    (handlePortReq w (portRequests w (k - 1) init).1).1.MaxPeerPort = 3499 + k ∧
    (handlePortReq w init).2 = 3500 ∧
    (portRequests w k init).1.MaxPeerPort = 3499 + k ∧
    (portRequests w k init).2 = (List.range k).map (fun i : Nat => (3500 : Int) + i) ∧
    (portRequests w k init).2.Pairwise (fun a b => a < b) := by
  have hinit : init.MaxPeerPort = 3499 := rfl
  have hprev := portRequests_eq w (k - 1) init (by rw [hinit]; omega)
    (by rw [hinit]; omega)
  have hall := portRequests_eq w k init (by rw [hinit]; omega) (by rw [hinit]; omega)
  have hkth : wrapInt w ((3499 : Int) + ((k - 1 : Nat) : Int) + 1) = 3499 + k := by
    rw [wrapInt_of_bounds w _ (by omega) (by omega)]
    omega
  have hfirst : wrapInt w ((3499 : Int) + 1) = 3500 := by
    rw [wrapInt_of_bounds w _ (by omega) (by omega)]
    rfl
  refine ⟨?_, ?_, ?_, ?_, ?_, ?_⟩
  · rw [hprev]
    simp only [handlePortReq, hinit]
    exact hkth
  · rw [hprev]
    simp only [handlePortReq, hinit]
    exact hkth
  · simp only [handlePortReq, hinit]
    exact hfirst
  · rw [hall]
    show init.MaxPeerPort + (k : Int) = 3499 + k
    rw [hinit]
  · rw [hall, hinit]
    rfl
  · rw [hall, hinit, List.pairwise_map]
    refine List.Pairwise.imp ?_ (List.pairwise_lt_range k)
    intro a b hab
    omega

/-- Witness of C8: three calls on 64-bit integers return 3500, 3501, 3502. -/
theorem handlePortReq_kth_witness :
    (portRequests 64 3 init).2 = [3500, 3501, 3502] ∧
      (portRequests 64 3 init).1.MaxPeerPort = 3502 :=
  ⟨(handlePortReq_kth 64 3 (by decide) (by decide)).2.2.2.2.1,
    (handlePortReq_kth 64 3 (by decide) (by decide)).2.2.2.1⟩

/-! ## Sanity checks on concrete inputs -/

example : scan (fun n => decide (n = 3)) [1, 2, 3, 4] = 2 := by decide
example : scan (fun n => decide (n = 4)) [1, 2, 3, 4] = 3 := by decide
example : scan (fun n => decide (n = 9)) [1, 2, 3, 4] = 3 := by decide
example : splice [1, 2, 3, 4] 3 = some [1, 2, 3] := by decide
example : splice ([] : List Nat) 0 = none := by decide
example : forgetNode [⟨"a", "x"⟩, ⟨"b", "y"⟩] "b" = some [⟨"a", "x"⟩] := by decide
example : forgetNode [⟨"a", "x"⟩, ⟨"b", "y"⟩] "c" = some [⟨"a", "x"⟩] := by decide
example : (updatePeerGraph emptyGraph ⟨⟨"A"⟩, 1, [⟨"B"⟩], true, false⟩ "B") =
    some ⟨⟨""⟩, 0, [⟨"A"⟩], false, false⟩ := by decide
example : (removePeerGraph emptyGraph ⟨⟨"X"⟩, 1, [⟨"Y"⟩], true, false⟩).isNone = true := by
  decide
example : (handlePortReq 64 init).2 = 3500 := by decide

end DNode
